import Mathlib

/-!
Verification of the speedr dynamic-range calculator.

The development shallowly embeds the two source files of the repository:

* `compute_dr.cpp` — `GetBlockSize`, `ComputeMonoDR`, `ComputeStereoDR`;
* `main.cpp`       — `ComputeRating`, the per-file channel validation and
  the album aggregate of `main`.

Modelling conventions:

* samples and per-block statistics are rationals; the in-block float
  arithmetic (sums of squares, maxima of absolute values, the top-k
  average) is modelled exactly over `ℚ`, matching the spec's stance that
  results are only required up to ordinary floating-point rounding;
* `GetBlockSize` evaluates `3.f * samplerate * 44160.f / 44100` in
  single-precision, so for it the binary32 round-to-nearest-even step is
  modelled exactly (`fround`);
* IEEE special values are modelled by explicit sum types: `FQ` is a
  rational-or-NaN value (a block mean square can be `0.f / 0` = NaN when
  a read returns zero frames), and `Fx` is the IEEE-flavoured result of
  `10 * log10(peak^2 / average_mean_square)` with `fin`/`+inf`/`-inf`/NaN;
* `std::nth_element(first, nth, last, greater)` guarantees that the
  element at `nth` is the one a full descending sort would put there and
  that no element after `nth` exceeds any element up to `nth`; every
  observation the source makes afterwards (the sum of the first
  `num_top_blocks` entries, the entry at index `min(1, size-1)`) therefore
  agrees with a full descending sort, which is how the selection is
  embedded (`sortDescQ` / `sortDescFQ`).
-/

namespace Speedr

/-- Round a rational to the nearest integer, ties to even: the IEEE-754
default rounding used by binary32 arithmetic. -/
def rhe (x : ℚ) : ℤ :=
  let n := ⌊x⌋
  if x - n < 1 / 2 then n
  else if 1 / 2 < x - n then n + 1
  else if n % 2 = 0 then n else n + 1

/-- Floor of the base-2 logarithm of a positive rational (the binary
exponent of its leading bit). -/
def floorLog2 (q : ℚ) : ℤ :=
  if 1 ≤ q then (Nat.log 2 ⌊q⌋.toNat : ℤ)
  else
    let f : ℤ := (Nat.log 2 ⌊1 / q⌋.toNat : ℤ)
    if 2 ^ (-f) ≤ q then -f else -f - 1

/-- Binary32 rounding of a rational: round the 24-bit significand to
nearest, ties to even.  Exponent overflow and subnormals are not modelled;
every value `GetBlockSize` produces lies well inside the normal range. -/
def fround (x : ℚ) : ℚ :=
  if x = 0 then 0
  else
    let e := floorLog2 |x|
    let m := rhe (|x| / 2 ^ (e - 23))
    if 0 ≤ x then (m : ℚ) * 2 ^ (e - 23) else -((m : ℚ) * 2 ^ (e - 23))

/-- Model of C `lround`: round to nearest, ties away from zero. -/
def lroundQ (q : ℚ) : ℤ :=
  if 0 ≤ q then ⌊q + 1 / 2⌋ else -⌊-q + 1 / 2⌋

/-- Embeds `GetBlockSize` (compute_dr.cpp): the single-precision
evaluation of `std::lround(3.f * samplerate * 44160.f / 44100)`.  The
literals `3.f`, `44160.f` and the converted divisor `44100` are exactly
representable; each of the cast and the three arithmetic operations
rounds once. -/
def GetBlockSize (samplerate : ℤ) : ℤ :=
  lroundQ (fround (fround (fround (3 * fround (samplerate : ℚ)) * 44160) / 44100))

/-- Embeds `std::max<std::size_t>(1, (input.frames() + block_size - 1) / block_size)`
(compute_dr.cpp).  `frames ≥ 0` and `block_size ≥ 1` in every reachable
call, so `ℕ` subtraction agrees with the C++ `size_t` arithmetic. -/
def numBlocks (frames bs : ℕ) : ℕ :=
  max 1 ((frames + bs - 1) / bs)

/-- Embeds `std::max<std::size_t>(1, num_blocks / 5)` (compute_dr.cpp). -/
def numTopBlocks (nb : ℕ) : ℕ :=
  max 1 (nb / 5)

/-- A binary32 statistic value: either a finite rational or NaN.  The NaN
case arises exactly from `sum_of_squares / samples_read` when a read
returns zero frames (`0.f / 0` is NaN in IEEE arithmetic). -/
inductive FQ where
  | fin : ℚ → FQ
  | nan : FQ
deriving DecidableEq, Repr

/-- IEEE addition restricted to the values that occur in the mean-square
accumulation: finite plus finite is finite, anything involving NaN is NaN. -/
def FQ.add : FQ → FQ → FQ
  | .fin a, .fin b => .fin (a + b)
  | _, _ => .nan

/-- IEEE multiplication by a finite rational constant (the
`average_mean_square *= 2.f / num_top_blocks` step); NaN propagates. -/
def FQ.mul (q : ℚ) : FQ → FQ
  | .fin a => .fin (a * q)
  | .nan => .nan

/-- Boolean counterpart of the ordering `std::sort`-style descending
comparison induced by `std::greater` on floats: `a` may stay before `b`
iff `¬(b > a)`.  On NaN every `>` comparison is false, so NaN compares
both ways (the C++ comparator is then not a strict weak order and
`nth_element` is undefined; no theorem below depends on the order of a
list that contains NaN). -/
def FQ.geb : FQ → FQ → Bool
  | .fin x, .fin y => decide (y ≤ x)
  | _, _ => true

/-- Propositional form of `FQ.geb`. -/
def FQ.ge (a b : FQ) : Prop := FQ.geb a b = true

instance : DecidableRel FQ.ge := fun a b =>
  inferInstanceAs (Decidable (FQ.geb a b = true))

/-- Descending order on rationals, as produced by
`std::nth_element(..., std::greater())`. -/
def sortDescQ (l : List ℚ) : List ℚ :=
  l.insertionSort (· ≥ ·)

/-- Descending order on `FQ` statistics. -/
def sortDescFQ (l : List FQ) : List FQ :=
  l.insertionSort FQ.ge

/-- Embeds the per-block reduction `sums_of_squares` (compute_dr.cpp):
the sum of the squared samples of one block. -/
def sumOfSquares (xs : List ℚ) : ℚ :=
  (xs.map fun x => x * x).sum

/-- Embeds `block_mean_square.push_back(sum_of_squares / samples_read)`:
the mean square of one block, NaN when the block holds zero frames. -/
def meanSquare (xs : List ℚ) : FQ :=
  if xs.length = 0 then .nan else .fin (sumOfSquares xs / xs.length)

/-- Embeds the per-block reduction `peaks` (compute_dr.cpp): maximum of
absolute sample values, accumulated from the zero vector register. -/
def peakVal (xs : List ℚ) : ℚ :=
  xs.foldl (fun m x => max m |x|) 0

/-- Embeds the top-block averaging of `ComputeMonoDR` /
`ComputeStereoDR`: partially order the mean squares descending, sum the
first `num_top_blocks` of them, then multiply by `2.f / num_top_blocks`
(the AES17 +3 dB calibration doubling). -/
def avgMeanSquare (k : ℕ) (ms : List FQ) : FQ :=
  (((sortDescFQ ms).take k).foldl FQ.add (.fin 0)).mul (2 / (k : ℚ))

/-- Embeds `block_peak[std::min<std::size_t>(1, block_peak.size() - 1)]`
after the descending `nth_element` at index 1. -/
def representativePeak (pk : List ℚ) : ℚ :=
  (sortDescQ pk).getD (min 1 (pk.length - 1)) 0

/-- An IEEE binary32 result value: finite (modelled as a real), one of
the infinities, or NaN. -/
inductive Fx where
  | fin : ℝ → Fx
  | pinf : Fx
  | ninf : Fx
  | nan : Fx

/-- Whether an `Fx` value is finite (`std::isfinite`). -/
def Fx.isFinite : Fx → Bool
  | .fin _ => true
  | _ => false

/-- IEEE addition on `Fx`: NaN propagates, opposite infinities give NaN. -/
def Fx.add : Fx → Fx → Fx
  | .nan, _ => .nan
  | _, .nan => .nan
  | .pinf, .ninf => .nan
  | .ninf, .pinf => .nan
  | .pinf, _ => .pinf
  | _, .pinf => .pinf
  | .ninf, _ => .ninf
  | _, .ninf => .ninf
  | .fin a, .fin b => .fin (a + b)

/-- IEEE division of an `Fx` value by a natural constant (the divisor is
`2` or the positive track count in the source). -/
noncomputable def Fx.divNat : Fx → ℕ → Fx
  | .nan, _ => .nan
  | .pinf, _ => .pinf
  | .ninf, _ => .ninf
  | .fin a, n =>
      if n = 0 then (if a < 0 then .ninf else if 0 < a then .pinf else .nan)
      else .fin (a / n)

/-- Model of C `std::round` on a real: round to nearest, ties away from
zero. -/
noncomputable def roundAway (x : ℝ) : ℤ :=
  if 0 ≤ x then ⌊x + 1 / 2⌋ else -⌊-x + 1 / 2⌋

/-- `std::round` lifted to `Fx`: infinities and NaN pass through. -/
noncomputable def Fx.roundFx : Fx → Fx
  | .fin a => .fin ((roundAway a : ℤ) : ℝ)
  | x => x

/-- Embeds `10 * std::log10(peak * peak / average_mean_square)` for a
finite average: the IEEE outcomes are `+inf` for a positive numerator
over `±0`, NaN for `0/0`, `-inf` for `log10(±0)`, NaN for the log of a
negative, and the finite real otherwise. -/
noncomputable def drOfQ (peak a : ℚ) : Fx :=
  if a = 0 then (if peak = 0 then .nan else .pinf)
  else if peak ^ 2 / a = 0 then .ninf
  else if peak ^ 2 / a < 0 then .nan
  else .fin (10 * Real.logb 10 ((peak ^ 2 / a : ℚ) : ℝ))

/-- The decibel conversion applied to the selected statistics; a NaN
average mean square propagates to a NaN rating. -/
noncomputable def drValue (peak : ℚ) (a : FQ) : Fx :=
  match a with
  | .nan => .nan
  | .fin q => drOfQ peak q

/-- The selection-plus-conversion tail shared by `ComputeMonoDR` and by
each channel of `ComputeStereoDR` (compute_dr.cpp, lines 65-76 and
132-151). -/
noncomputable def monoDRFromStats (ntb : ℕ) (ms : List FQ) (pk : List ℚ) : Fx :=
  drValue (representativePeak pk) (avgMeanSquare ntb ms)

/-- The i-th block of a channel's sample list: `readf` hands out
consecutive spans of at most `block_size` frames, the last possibly
short. -/
def blockAt (bs i : ℕ) (xs : List ℚ) : List ℚ :=
  (xs.drop (i * bs)).take bs

/-- The per-block mean squares of one channel (`block_mean_square`). -/
def channelMS (bs nb : ℕ) (xs : List ℚ) : List FQ :=
  (List.range nb).map fun i => meanSquare (blockAt bs i xs)

/-- The per-block peaks of one channel (`block_peak`). -/
def channelPeak (bs nb : ℕ) (xs : List ℚ) : List ℚ :=
  (List.range nb).map fun i => peakVal (blockAt bs i xs)

/-- Embeds `ComputeMonoDR` (compute_dr.cpp): block segmentation, the
per-block reductions, the top-quintile average, the representative peak
and the decibel conversion, as one function of the sample stream. -/
noncomputable def ComputeMonoDR (samplerate : ℤ) (samples : List ℚ) : Fx :=
  let bs := (GetBlockSize samplerate).toNat
  let nb := numBlocks samples.length bs
  monoDRFromStats (numTopBlocks nb) (channelMS bs nb samples) (channelPeak bs nb samples)

/-- Embeds `ComputeStereoDR` (compute_dr.cpp): the same pipeline run on
the deinterleaved left and right channels of a shared block read; a frame
is a left/right pair. -/
noncomputable def ComputeStereoDR (samplerate : ℤ) (frames : List (ℚ × ℚ)) : Fx × Fx :=
  let bs := (GetBlockSize samplerate).toNat
  let nb := numBlocks frames.length bs
  let ntb := numTopBlocks nb
  let left := frames.map Prod.fst
  let right := frames.map Prod.snd
  (monoDRFromStats ntb (channelMS bs nb left) (channelPeak bs nb left),
   monoDRFromStats ntb (channelMS bs nb right) (channelPeak bs nb right))

/-- Embeds the stereo arm of `ComputeRating` (main.cpp):
`final_rating = std::round((left_dr + right_dr) / 2)`. -/
noncomputable def finalStereoRating (l r : Fx) : Fx :=
  ((l.add r).divNat 2).roundFx

/-- Pairs up an interleaved stereo sample list into frames, as
`readf` does for a two-channel stream. -/
def deinterleave : List ℚ → List (ℚ × ℚ)
  | x :: y :: rest => (x, y) :: deinterleave rest
  | _ => []

/-- One input file as the core sees it: channel count, sample rate and
decoded interleaved samples. -/
structure TrackInput where
  channels : ℕ
  samplerate : ℤ
  samples : List ℚ

/-- Embeds `ComputeRating` (main.cpp): one channel dispatches to
`ComputeMonoDR`, anything else to `ComputeStereoDR`; the function
performs no channel-count validation of its own. -/
noncomputable def ComputeRating (t : TrackInput) : Fx :=
  if t.channels = 1 then (ComputeMonoDR t.samplerate t.samples).roundFx
  else
    let p := ComputeStereoDR t.samplerate (deinterleave t.samples)
    finalStereoRating p.1 p.2

/-- Embeds `album_rating += rating.final_rating` (main.cpp): the direct
summation of the per-track final ratings, starting from `0.f`. -/
def sumRatings (rs : List Fx) : Fx :=
  rs.foldl Fx.add (.fin 0)

/-- Embeds `album_rating = std::round(album_rating / tracks.size())`
(main.cpp). -/
noncomputable def albumRating (rs : List Fx) : Fx :=
  ((sumRatings rs).divNat rs.length).roundFx

/-- Embeds the file loop of `main` (main.cpp): every file is opened and
its channel count checked before any rating is computed; a count above
two aborts the whole run with a failure exit before `ComputeRating` is
ever invoked. -/
noncomputable def runTracks (ts : List TrackInput) : Except Unit (List Fx) :=
  if ts.all (fun t => t.channels ≤ 2) then .ok (ts.map ComputeRating) else .error ()

/-- Modelled from the spec (§4.3): the sum of the `k` largest values of a
sequence, written independently of the implementation's descending
selection — sort ascending, reverse, take `k`. -/
def topKLargestSum (k : ℕ) (l : List ℚ) : ℚ :=
  (((l.insertionSort (· ≤ ·)).reverse).take k).sum

/-- The largest value of a rational list (`0` for the empty list). -/
def maxQ (l : List ℚ) : ℚ :=
  l.foldl max (l.headD 0)

/-- Modelled from the spec (§4.3): the second-largest value of a list —
the largest value remaining after removing one occurrence of the
largest. -/
def secondLargest (l : List ℚ) : ℚ :=
  maxQ (l.erase (maxQ l))

/-! ### Evaluation lemmas for the binary32 model -/

lemma rhe_eq_floor {x : ℚ} (h : Int.fract x < 1/2) : rhe x = ⌊x⌋ := by
  simp only [rhe, Int.self_sub_floor]
  rw [if_pos h]

lemma floorLog2_of_one_le {q : ℚ} (h : 1 ≤ q) : floorLog2 q = (Nat.log 2 ⌊q⌋.toNat : ℤ) := by
  simp [floorLog2, h]

lemma fround_of_pos {q : ℚ} (h : 0 < q) :
    fround q = (rhe (q / 2 ^ (floorLog2 q - 23)) : ℚ) * 2 ^ (floorLog2 q - 23) := by
  simp [fround, h.ne', abs_of_pos h, h.le]

lemma log2_44100 : Nat.log 2 44100 = 15 :=
  Nat.log_eq_of_pow_le_of_lt_pow (by norm_num) (by norm_num)

lemma log2_132300 : Nat.log 2 132300 = 17 :=
  Nat.log_eq_of_pow_le_of_lt_pow (by norm_num) (by norm_num)

lemma log2_5842368000 : Nat.log 2 5842368000 = 32 :=
  Nat.log_eq_of_pow_le_of_lt_pow (by norm_num) (by norm_num)

lemma log2_132480 : Nat.log 2 132480 = 17 :=
  Nat.log_eq_of_pow_le_of_lt_pow (by norm_num) (by norm_num)

lemma floorLog2_44100 : floorLog2 (44100:ℚ) = 15 := by
  rw [floorLog2_of_one_le (by norm_num)]
  have h : (⌊(44100:ℚ)⌋).toNat = 44100 := by norm_num; rfl
  rw [h, log2_44100]; rfl

lemma fround_44100 : fround (44100:ℚ) = 44100 := by
  rw [fround_of_pos (by norm_num), floorLog2_44100]
  have e : ((15:ℤ) - 23) = -8 := by norm_num
  have p : ((2:ℚ) ^ (-8:ℤ)) = 1/256 := by norm_num
  have d : (44100:ℚ) / (1/256) = 11289600 := by norm_num
  rw [e, p, d, rhe_eq_floor (by norm_num [Int.fract])]
  norm_num

lemma floorLog2_132300 : floorLog2 (132300:ℚ) = 17 := by
  rw [floorLog2_of_one_le (by norm_num)]
  have h : (⌊(132300:ℚ)⌋).toNat = 132300 := by norm_num; rfl
  rw [h, log2_132300]; rfl

lemma fround_132300 : fround (132300:ℚ) = 132300 := by
  rw [fround_of_pos (by norm_num), floorLog2_132300]
  have e : ((17:ℤ) - 23) = -6 := by norm_num
  have p : ((2:ℚ) ^ (-6:ℤ)) = 1/64 := by norm_num
  have d : (132300:ℚ) / (1/64) = 8467200 := by norm_num
  rw [e, p, d, rhe_eq_floor (by norm_num [Int.fract])]
  norm_num

lemma floorLog2_5842368000 : floorLog2 (5842368000:ℚ) = 32 := by
  rw [floorLog2_of_one_le (by norm_num)]
  have h : (⌊(5842368000:ℚ)⌋).toNat = 5842368000 := by norm_num; rfl
  rw [h, log2_5842368000]; rfl

lemma fround_5842368000 : fround (5842368000:ℚ) = 5842368000 := by
  rw [fround_of_pos (by norm_num), floorLog2_5842368000]
  have e : ((32:ℤ) - 23) = 9 := by norm_num
  have p : ((2:ℚ) ^ (9:ℤ)) = 512 := by norm_num
  have d : (5842368000:ℚ) / 512 = 11410875 := by norm_num
  rw [e, p, d, rhe_eq_floor (by norm_num [Int.fract])]
  norm_num

lemma floorLog2_132480 : floorLog2 (132480:ℚ) = 17 := by
  rw [floorLog2_of_one_le (by norm_num)]
  have h : (⌊(132480:ℚ)⌋).toNat = 132480 := by norm_num; rfl
  rw [h, log2_132480]; rfl

lemma fround_132480 : fround (132480:ℚ) = 132480 := by
  rw [fround_of_pos (by norm_num), floorLog2_132480]
  have e : ((17:ℤ) - 23) = -6 := by norm_num
  have p : ((2:ℚ) ^ (-6:ℤ)) = 1/64 := by norm_num
  have d : (132480:ℚ) / (1/64) = 8478720 := by norm_num
  rw [e, p, d, rhe_eq_floor (by norm_num [Int.fract])]
  norm_num

/-- Evaluation of the binary32 chain of `GetBlockSize` at 44100. -/
lemma getBlockSize_44100_eval : GetBlockSize 44100 = 132480 := by
  rw [GetBlockSize]
  have c : ((44100:ℤ) : ℚ) = 44100 := by norm_num
  rw [c, fround_44100]
  have m3 : (3:ℚ) * 44100 = 132300 := by norm_num
  rw [m3, fround_132300]
  have m44160 : (132300:ℚ) * 44160 = 5842368000 := by norm_num
  rw [m44160, fround_5842368000]
  have d : (5842368000:ℚ) / 44100 = 132480 := by norm_num
  rw [d, fround_132480, lroundQ, if_pos (by norm_num)]
  norm_num

/-- C4: for `sample_rate = 44100` the computed block size is exactly
132480 frames, with the expression
`round(3 × sample_rate × 44160 / 44100)` evaluated in single-precision
floating-point arithmetic (every intermediate of this instance happens to
be exactly representable in binary32). -/
theorem c4_block_size_44100 : GetBlockSize 44100 = 132480 :=
  getBlockSize_44100_eval

/-! ### Bounds for the binary32 model -/

lemma le_rhe (x : ℚ) : x - 1/2 ≤ (rhe x : ℚ) := by
  have h1 : (⌊x⌋ : ℚ) ≤ x := Int.floor_le x
  have h2 : x < ⌊x⌋ + 1 := Int.lt_floor_add_one x
  simp only [rhe]
  split_ifs <;> push_cast <;> linarith

lemma zpow_floorLog2_le {q : ℚ} (h : 1 ≤ q) :
    (2:ℚ) ^ floorLog2 q ≤ q ∧ q < 2 ^ (floorLog2 q + 1) := by
  rw [floorLog2_of_one_le h]
  have hfl : (0:ℤ) ≤ ⌊q⌋ := Int.le_floor.mpr (by exact_mod_cast zero_le_one.trans h)
  have hm1 : 1 ≤ ⌊q⌋.toNat := by
    have : (1:ℤ) ≤ ⌊q⌋ := Int.le_floor.mpr (by exact_mod_cast h)
    omega
  have l1 : (2:ℕ) ^ Nat.log 2 ⌊q⌋.toNat ≤ ⌊q⌋.toNat := Nat.pow_log_le_self 2 (by omega)
  have l2 : ⌊q⌋.toNat < 2 ^ (Nat.log 2 ⌊q⌋.toNat + 1) := Nat.lt_pow_succ_log_self (by norm_num) _
  have hcast : ((⌊q⌋.toNat : ℕ) : ℚ) = (⌊q⌋ : ℚ) := by
    exact_mod_cast congrArg (fun z : ℤ => (z : ℚ)) (Int.toNat_of_nonneg hfl)
  constructor
  · rw [zpow_natCast]
    calc ((2:ℚ) ^ Nat.log 2 ⌊q⌋.toNat) ≤ ((⌊q⌋.toNat : ℕ) : ℚ) := by exact_mod_cast l1
    _ = (⌊q⌋ : ℚ) := hcast
    _ ≤ q := Int.floor_le q
  · have e1 : ((Nat.log 2 ⌊q⌋.toNat : ℤ) + 1) = ((Nat.log 2 ⌊q⌋.toNat + 1 : ℕ) : ℤ) := by
      push_cast; ring
    rw [e1, zpow_natCast]
    have l3 : (⌊q⌋.toNat : ℚ) + 1 ≤ ((2:ℚ) ^ (Nat.log 2 ⌊q⌋.toNat + 1)) := by exact_mod_cast l2
    have l4 : q < (⌊q⌋ : ℚ) + 1 := Int.lt_floor_add_one q
    linarith [hcast ▸ l3]

lemma fround_ge {q : ℚ} (h : 1 ≤ q) : q - q / 16777216 ≤ fround q := by
  have h0 : (0:ℚ) < q := lt_of_lt_of_le one_pos h
  rw [fround_of_pos h0]
  obtain ⟨he1, _⟩ := zpow_floorLog2_le h
  set e := floorLog2 q with he_def
  have hp : (0:ℚ) < 2 ^ (e - 23) := zpow_pos (by norm_num) _
  have hr := le_rhe (q / 2 ^ (e - 23))
  have step : (q / 2 ^ (e - 23) - 1/2) * 2 ^ (e - 23)
      ≤ (rhe (q / 2 ^ (e - 23)) : ℚ) * 2 ^ (e - 23) :=
    mul_le_mul_of_nonneg_right hr hp.le
  have hQsplit : (2:ℚ) ^ (e - 23) = 2 * 2 ^ (e - 24) := by
    rw [show e - 23 = 1 + (e - 24) by ring, zpow_add₀ (two_ne_zero : (2:ℚ) ≠ 0)]
    norm_num
  have e0 : (q / 2 ^ (e - 23)) * 2 ^ (e - 23) = q := div_mul_cancel₀ q hp.ne'
  have expand : (q / 2 ^ (e - 23) - 1/2) * 2 ^ (e - 23) = q - 2 ^ (e - 24) := by
    calc (q / 2 ^ (e - 23) - 1/2) * 2 ^ (e - 23)
        = (q / 2 ^ (e - 23)) * 2 ^ (e - 23) - 2 ^ (e - 23) / 2 := by ring
    _ = q - 2 ^ (e - 23) / 2 := by rw [e0]
    _ = q - 2 ^ (e - 24) := by rw [hQsplit]; ring
  have small : (2:ℚ) ^ (e - 24) ≤ q / 16777216 := by
    have e2 : (2:ℚ) ^ (e - 24) = 2 ^ e * (1/16777216) := by
      rw [show e - 24 = e + (-24) by ring, zpow_add₀ (two_ne_zero : (2:ℚ) ≠ 0)]
      norm_num
    rw [e2]
    have := mul_le_mul_of_nonneg_right he1 (by norm_num : (0:ℚ) ≤ 1/16777216)
    linarith
  linarith

lemma GetBlockSize_pos {sr : ℤ} (hsr : 1 ≤ sr) : 1 ≤ GetBlockSize sr := by
  rw [GetBlockSize]
  have hx0 : (1:ℚ) ≤ (sr:ℚ) := by exact_mod_cast hsr
  have h0 := fround_ge hx0
  have hq0 : (16777215/16777216 : ℚ) ≤ fround (sr:ℚ) := by linarith
  have h1ge : (1:ℚ) ≤ 3 * fround (sr:ℚ) := by linarith
  have h1 := fround_ge h1ge
  have hq1 : (29/10 : ℚ) ≤ fround (3 * fround (sr:ℚ)) := by linarith
  have h2ge : (1:ℚ) ≤ fround (3 * fround (sr:ℚ)) * 44160 := by linarith
  have h2 := fround_ge h2ge
  have hq2 : (128000 : ℚ) ≤ fround (fround (3 * fround (sr:ℚ)) * 44160) := by linarith
  have h3ge : (1:ℚ) ≤ fround (fround (3 * fround (sr:ℚ)) * 44160) / 44100 := by linarith
  have h3 := fround_ge h3ge
  have hq3 : (5/2 : ℚ) ≤ fround (fround (fround (3 * fround (sr:ℚ)) * 44160) / 44100) := by
    linarith
  rw [lroundQ, if_pos (by linarith)]
  exact Int.le_floor.mpr (by push_cast; linarith)

/-! ### Block segmentation (claim C5) -/

lemma ceil_div_nat {a b : ℕ} (hb : 1 ≤ b) : (a + b - 1) / b = ⌈(a:ℚ)/(b:ℚ)⌉₊ := by
  rcases Nat.eq_zero_or_pos a with ha | ha
  · subst ha
    rw [Nat.div_eq_of_lt (by omega)]
    simp
  · have hb' : (0:ℚ) < (b:ℚ) := by exact_mod_cast hb
    have hdm : (a - 1) / b * b + (a - 1) % b = a - 1 := Nat.div_add_mod' _ _
    have hmod : (a - 1) % b < b := Nat.mod_lt (a - 1) (by omega)
    have hL : (a + b - 1) / b = (a - 1) / b + 1 := by
      rw [show a + b - 1 = (a - 1) + b by omega, Nat.add_div_right _ (by omega)]
    rw [hL]
    symm
    apply (Nat.ceil_eq_iff (Nat.succ_ne_zero ((a - 1) / b))).mpr
    have hcast1 : (((a - 1) / b : ℕ) : ℚ) * b ≤ (a:ℚ) - 1 := by
      have hn : ((a - 1) / b) * b ≤ a - 1 := Nat.div_mul_le_self _ _
      have h' : (((a - 1) / b * b : ℕ) : ℚ) ≤ ((a - 1 : ℕ) : ℚ) := by exact_mod_cast hn
      push_cast [Nat.cast_sub ha] at h' ⊢
      linarith
    have hcast2 : (a:ℚ) ≤ (((a - 1) / b : ℕ) : ℚ) * b + b := by
      have hn : a ≤ ((a - 1) / b) * b + b := by omega
      have h' : ((a:ℕ) : ℚ) ≤ (((a - 1) / b * b + b : ℕ) : ℚ) := by exact_mod_cast hn
      push_cast at h' ⊢
      linarith
    constructor
    · rw [Nat.succ_sub_one, lt_div_iff₀ hb']
      linarith
    · rw [div_le_iff₀ hb']
      push_cast
      linarith

lemma numBlocks_eq_ceil {a b : ℕ} (hb : 1 ≤ b) :
    numBlocks a b = max 1 ⌈(a:ℚ)/(b:ℚ)⌉₊ := by
  rw [numBlocks, ceil_div_nat hb]

lemma one_le_numBlocks (a b : ℕ) : 1 ≤ numBlocks a b := le_max_left _ _

lemma numTopBlocks_le {nb : ℕ} (h : 1 ≤ nb) : numTopBlocks nb ≤ nb :=
  max_le h (Nat.div_le_self _ _)

theorem c5_segmentation (sr : ℤ) (hsr : 1 ≤ sr) (frames : ℕ) :
    numBlocks frames (GetBlockSize sr).toNat
      = max 1 ⌈(frames : ℚ) / ((GetBlockSize sr).toNat : ℚ)⌉₊ ∧
    numTopBlocks (numBlocks frames (GetBlockSize sr).toNat)
      = max 1 (numBlocks frames (GetBlockSize sr).toNat / 5) ∧
    1 ≤ numTopBlocks (numBlocks frames (GetBlockSize sr).toNat) ∧
    numTopBlocks (numBlocks frames (GetBlockSize sr).toNat)
      ≤ numBlocks frames (GetBlockSize sr).toNat := by
  have hbs : 1 ≤ (GetBlockSize sr).toNat := by
    have := GetBlockSize_pos hsr
    omega
  exact ⟨numBlocks_eq_ceil hbs, rfl, le_max_left _ _,
    numTopBlocks_le (one_le_numBlocks _ _)⟩

theorem c5_segmentation_witness :
    (1:ℤ) ≤ 44100 ∧
    numBlocks 1000000 (GetBlockSize 44100).toNat
      = max 1 ⌈(1000000 : ℚ) / ((GetBlockSize 44100).toNat : ℚ)⌉₊ :=
  ⟨by norm_num, (c5_segmentation 44100 (by norm_num) 1000000).1⟩

/-! ### Descending selection and the representative peak (claim C3) -/

lemma sortDescQ_perm (l : List ℚ) : List.Perm (sortDescQ l) l := List.perm_insertionSort _ l

lemma sortDescQ_sorted (l : List ℚ) : (sortDescQ l).Sorted (· ≥ ·) :=
  List.sorted_insertionSort _ l

lemma foldl_max_eq_or_mem (l : List ℚ) (a : ℚ) :
    l.foldl max a = a ∨ l.foldl max a ∈ l := by
  induction l generalizing a with
  | nil => exact Or.inl rfl
  | cons x t ih =>
    rw [List.foldl_cons]
    rcases max_choice a x with hm | hm <;> rw [hm]
    · exact (ih a).imp id (List.mem_cons_of_mem x)
    · rcases ih x with h | h
      · exact Or.inr (by rw [h]; exact List.mem_cons_self x t)
      · exact Or.inr (List.mem_cons_of_mem x h)

lemma le_foldl_max_init (l : List ℚ) (a : ℚ) : a ≤ l.foldl max a := by
  induction l generalizing a with
  | nil => exact le_refl a
  | cons x t ih => exact le_trans (le_max_left a x) (ih (max a x))

lemma le_foldl_max_mem {l : List ℚ} {y : ℚ} (h : y ∈ l) (a : ℚ) : y ≤ l.foldl max a := by
  induction l generalizing a with
  | nil => cases h
  | cons x t ih =>
    rcases List.mem_cons.mp h with rfl | h'
    · exact le_trans (le_max_right a y) (le_foldl_max_init t _)
    · exact ih h' _

lemma maxQ_mem {l : List ℚ} (h : l ≠ []) : maxQ l ∈ l := by
  cases l with
  | nil => exact absurd rfl h
  | cons x t =>
    rcases foldl_max_eq_or_mem (x :: t) ((x :: t).headD 0) with h' | h'
    · rw [maxQ, h']; exact List.mem_cons_self x t
    · exact h'

lemma le_maxQ {l : List ℚ} {y : ℚ} (h : y ∈ l) : y ≤ maxQ l := le_foldl_max_mem h _

lemma maxQ_eq_of {l : List ℚ} {m : ℚ} (hm : m ∈ l) (hb : ∀ y ∈ l, y ≤ m) : maxQ l = m :=
  le_antisymm (hb _ (maxQ_mem (List.ne_nil_of_mem hm))) (le_maxQ hm)

/-- C3: the representative peak is the second-largest peak when there are
at least two blocks, and the unique peak when there is exactly one block
(the entry at index `min(1, num_blocks - 1)` of the descending order). -/
theorem c3_representative_peak (l : List ℚ) (hne : l ≠ []) :
    (2 ≤ l.length → representativePeak l = secondLargest l) ∧
    (l.length = 1 → representativePeak l = l.headD 0) := by
  constructor
  · intro hlen
    have hperm := sortDescQ_perm l
    have hsort := sortDescQ_sorted l
    have hlen' : 2 ≤ (sortDescQ l).length := by
      rw [hperm.length_eq]; exact hlen
    obtain ⟨x, s1, hx⟩ : ∃ x s1, sortDescQ l = x :: s1 := by
      cases hs : sortDescQ l with
      | nil => rw [hs] at hlen'; simp at hlen'
      | cons x s1 => exact ⟨x, s1, rfl⟩
    obtain ⟨y, t, hy⟩ : ∃ y t, s1 = y :: t := by
      cases hs : s1 with
      | nil => rw [hs] at hx; rw [hx] at hlen'; simp at hlen'
      | cons y t => exact ⟨y, t, rfl⟩
    rw [hy] at hx
    have hsx : (x :: y :: t).Sorted (· ≥ ·) := hx ▸ hsort
    have hmem : ∀ z ∈ l, z ≤ x := by
      intro z hz
      have hz' : z ∈ sortDescQ l := hperm.symm.subset hz
      rw [hx] at hz'
      rcases List.mem_cons.mp hz' with rfl | hz''
      · exact le_refl z
      · exact List.rel_of_sorted_cons hsx z hz''
    have hxl : x ∈ l := hperm.subset (by rw [hx]; exact List.mem_cons_self _ _)
    have hmax : maxQ l = x := maxQ_eq_of hxl hmem
    have herase : List.Perm (l.erase x) (y :: t) := by
      have h1 := (hperm.symm).erase x
      rw [hx, List.erase_cons_head] at h1
      exact h1
    have hsort_tail : (y :: t).Sorted (· ≥ ·) := hsx.tail
    have hy_bound : ∀ z ∈ y :: t, z ≤ y := by
      intro z hz
      rcases List.mem_cons.mp hz with rfl | hz'
      · exact le_refl z
      · exact List.rel_of_sorted_cons hsort_tail z hz'
    have hy_max : maxQ (l.erase x) = y := by
      apply maxQ_eq_of
      · exact herase.symm.subset (List.mem_cons_self _ _)
      · intro z hz
        exact hy_bound z (herase.subset hz)
    have hidx : min 1 (l.length - 1) = 1 := by omega
    rw [representativePeak, hidx, hx, secondLargest, hmax]
    simp [hy_max]
  · intro hlen
    obtain ⟨a, rfl⟩ := List.length_eq_one.mp hlen
    rw [representativePeak]
    simp [sortDescQ, List.insertionSort]

theorem c3_representative_peak_witness :
    representativePeak [1/2, 3] = secondLargest [1/2, 3] :=
  (c3_representative_peak [1/2, 3] (by simp)).1 (by simp)

/-! ### Top-quintile averaging (claim C2) -/

lemma fq_ge_fin_iff (a b : ℚ) : FQ.ge (.fin a) (.fin b) ↔ b ≤ a := by
  simp [FQ.ge, FQ.geb]

lemma sortDescFQ_map_fin (l : List ℚ) :
    sortDescFQ (l.map FQ.fin) = (sortDescQ l).map FQ.fin := by
  rw [sortDescFQ, sortDescQ]
  symm
  apply List.map_insertionSort
  intro a _ b _
  rw [fq_ge_fin_iff]

lemma foldl_FQadd_map_fin (qs : List ℚ) (a : ℚ) :
    (qs.map FQ.fin).foldl FQ.add (.fin a) = .fin (qs.foldl (· + ·) a) := by
  induction qs generalizing a with
  | nil => rfl
  | cons x t ih => simpa [FQ.add] using ih (a + x)

lemma foldl_add_eq_sum (l : List ℚ) (a : ℚ) : l.foldl (· + ·) a = a + l.sum := by
  induction l generalizing a with
  | nil => simp
  | cons x t ih => rw [List.foldl_cons, ih, List.sum_cons]; ring

lemma sortDescQ_eq_of_perm {l l' : List ℚ} (h : List.Perm l l') :
    sortDescQ l = sortDescQ l' := by
  apply List.eq_of_perm_of_sorted _ (sortDescQ_sorted l) (sortDescQ_sorted l')
  exact (sortDescQ_perm l).trans (h.trans (sortDescQ_perm l').symm)

lemma sortDescQ_eq_reverse_asc (l : List ℚ) :
    sortDescQ l = (l.insertionSort (· ≤ ·)).reverse := by
  refine List.eq_of_perm_of_sorted ?_ (sortDescQ_sorted l) ?_
  · exact (sortDescQ_perm l).trans
      ((List.perm_insertionSort _ l).symm.trans (List.reverse_perm _).symm)
  · exact List.pairwise_reverse.mpr (by simpa using List.sorted_insertionSort (· ≤ ·) l)

/-- C2: the average mean square is the sum of the `num_top_blocks`
largest mean squares, doubled and divided by `num_top_blocks`, and it
does not depend on the order of the per-block sequence. -/
theorem c2_average_mean_square (l l' : List ℚ) (hperm : List.Perm l l') (hne : l ≠ []) :
    avgMeanSquare (numTopBlocks l.length) (l.map FQ.fin)
      = FQ.fin (topKLargestSum (numTopBlocks l.length) l' * 2
          / (numTopBlocks l.length : ℚ)) := by
  have hk : numTopBlocks l.length ≠ 0 := by
    have := le_max_left 1 (l.length / 5)
    rw [numTopBlocks]
    omega
  rw [avgMeanSquare, sortDescFQ_map_fin, ← List.map_take, foldl_FQadd_map_fin,
    foldl_add_eq_sum, FQ.mul, topKLargestSum, ← sortDescQ_eq_reverse_asc,
    sortDescQ_eq_of_perm hperm]
  congr 1
  field_simp

theorem c2_average_mean_square_witness :
    List.Perm [(1:ℚ), 2] [(2:ℚ), 1] ∧ ([(1:ℚ), 2] ≠ []) ∧
    avgMeanSquare (numTopBlocks ([(1:ℚ), 2]).length) ([(1:ℚ), 2].map FQ.fin)
      = FQ.fin (topKLargestSum (numTopBlocks ([(1:ℚ), 2]).length) [(2:ℚ), 1] * 2
          / (numTopBlocks ([(1:ℚ), 2]).length : ℚ)) :=
  ⟨by decide, by simp,
    c2_average_mean_square [1, 2] [2, 1] (by decide) (by simp)⟩

/-! ### The worked scenario (claim C1) -/

lemma logb10_nine_bounds : (19/20 : ℝ) < Real.logb 10 9 ∧ Real.logb 10 9 < 1 := by
  constructor
  · have h1 : Real.logb 10 ((10:ℝ) ^ (19:ℕ)) < Real.logb 10 ((9:ℝ) ^ (20:ℕ)) :=
      Real.logb_lt_logb (by norm_num) (by positivity) (by norm_num)
    rw [Real.logb_pow, Real.logb_pow, Real.logb_self_eq_one (by norm_num)] at h1
    push_cast at h1
    linarith
  · have h2 : Real.logb 10 9 < Real.logb 10 10 :=
      Real.logb_lt_logb (by norm_num) (by norm_num) (by norm_num)
    rwa [Real.logb_self_eq_one (by norm_num)] at h2

lemma logb10_of_nine_thousandth : Real.logb 10 ((9:ℝ)/1000) = Real.logb 10 9 - 3 := by
  rw [Real.logb_div (by norm_num) (by norm_num)]
  have h : (1000:ℝ) = 10 ^ (3:ℕ) := by norm_num
  rw [h, Real.logb_pow, Real.logb_self_eq_one (by norm_num)]
  norm_num

lemma roundAway_dr : roundAway (10 * Real.logb 10 ((9:ℝ)/100/10)) = -20 := by
  obtain ⟨hlo, hhi⟩ := logb10_nine_bounds
  have he : (9:ℝ)/100/10 = 9/1000 := by norm_num
  have hx : 10 * Real.logb 10 ((9:ℝ)/100/10) = 10 * Real.logb 10 9 - 30 := by
    rw [he, logb10_of_nine_thousandth]; ring
  rw [roundAway, if_neg (by rw [hx]; intro hcon; linarith)]
  rw [hx]
  have h20 : ⌊-(10 * Real.logb 10 9 - 30) + 1/2⌋ = (20:ℤ) := by
    apply Int.floor_eq_iff.mpr
    constructor
    · push_cast
      linarith
    · push_cast
      linarith
  rw [h20]

lemma c1_avg : avgMeanSquare 1 [FQ.fin 1, .fin 2, .fin 3, .fin 4, .fin 5] = FQ.fin 10 := by
  norm_num [avgMeanSquare, sortDescFQ, List.insertionSort, List.orderedInsert,
    FQ.ge, FQ.geb, FQ.add, FQ.mul]

lemma c1_peak : representativePeak [1/10, 2/10, 9/10, 1/20, 3/10] = 3/10 := by
  norm_num [representativePeak, sortDescQ, List.insertionSort, List.orderedInsert]

/-- C1: the worked mono scenario with `mean_square = [1,2,3,4,5]` and
`peak = [0.1, 0.2, 0.9, 0.05, 0.3]` over five blocks: one top block,
`average_mean_square = 10`, representative peak `0.3`,
`DR = 10 log10(0.09/10)` and final rounded rating `-20`. -/
theorem c1_worked_scenario :
    numTopBlocks 5 = 1 ∧
    avgMeanSquare 1 [FQ.fin 1, .fin 2, .fin 3, .fin 4, .fin 5] = FQ.fin 10 ∧
    representativePeak [1/10, 2/10, 9/10, 1/20, 3/10] = 3/10 ∧
    monoDRFromStats 1 [FQ.fin 1, .fin 2, .fin 3, .fin 4, .fin 5]
        [1/10, 2/10, 9/10, 1/20, 3/10]
      = Fx.fin (10 * Real.logb 10 ((9:ℝ)/100/10)) ∧
    (monoDRFromStats 1 [FQ.fin 1, .fin 2, .fin 3, .fin 4, .fin 5]
        [1/10, 2/10, 9/10, 1/20, 3/10]).roundFx = Fx.fin (-20) := by
  have hdr : monoDRFromStats 1 [FQ.fin 1, .fin 2, .fin 3, .fin 4, .fin 5]
      [1/10, 2/10, 9/10, 1/20, 3/10] = Fx.fin (10 * Real.logb 10 ((9:ℝ)/100/10)) := by
    rw [monoDRFromStats, c1_avg, c1_peak]
    simp only [drValue, drOfQ]
    rw [if_neg (by norm_num), if_neg (by norm_num), if_neg (by norm_num)]
    congr 1
    have hq : ((3:ℚ)/10) ^ 2 / 10 = 9/1000 := by norm_num
    rw [hq]
    push_cast
    norm_num
  refine ⟨by decide, c1_avg, c1_peak, hdr, ?_⟩
  rw [hdr]
  simp only [Fx.roundFx, roundAway_dr]
  norm_num

/-! ### Stereo symmetry, album aggregation, channel validation (claims C7, C8, C9) -/

lemma finalStereoRating_self (d : Fx) : finalStereoRating d d = d.roundFx := by
  cases d with
  | fin x =>
    simp only [finalStereoRating, Fx.add, Fx.divNat, Fx.roundFx]
    rw [if_neg (by norm_num)]
    norm_num
  | pinf => rfl
  | ninf => rfl
  | nan => rfl

/-- C7: a stereo input whose two channels have identical per-block
statistics sequences (equal mean-square lists and equal peak lists, as
computed by the shared-boundary block pass) has equal left and right DR
values, and the final rating is the rounding of the left DR alone. -/
theorem c7_stereo_symmetry (sr : ℤ) (frames : List (ℚ × ℚ))
    (hms : channelMS (GetBlockSize sr).toNat
        (numBlocks frames.length (GetBlockSize sr).toNat) (frames.map Prod.fst)
      = channelMS (GetBlockSize sr).toNat
        (numBlocks frames.length (GetBlockSize sr).toNat) (frames.map Prod.snd))
    (hpk : channelPeak (GetBlockSize sr).toNat
        (numBlocks frames.length (GetBlockSize sr).toNat) (frames.map Prod.fst)
      = channelPeak (GetBlockSize sr).toNat
        (numBlocks frames.length (GetBlockSize sr).toNat) (frames.map Prod.snd)) :
    (ComputeStereoDR sr frames).1 = (ComputeStereoDR sr frames).2 ∧
    finalStereoRating (ComputeStereoDR sr frames).1 (ComputeStereoDR sr frames).2
      = (ComputeStereoDR sr frames).1.roundFx := by
  have heq : (ComputeStereoDR sr frames).1 = (ComputeStereoDR sr frames).2 := by
    simp only [ComputeStereoDR]
    rw [hms, hpk]
  refine ⟨heq, ?_⟩
  rw [← heq, finalStereoRating_self]

theorem c7_stereo_symmetry_witness :
    (channelMS (GetBlockSize 44100).toNat
        (numBlocks ([((1:ℚ)/2, -(1:ℚ)/2)]).length (GetBlockSize 44100).toNat)
        ([((1:ℚ)/2, -(1:ℚ)/2)].map Prod.fst)
      = channelMS (GetBlockSize 44100).toNat
        (numBlocks ([((1:ℚ)/2, -(1:ℚ)/2)]).length (GetBlockSize 44100).toNat)
        ([((1:ℚ)/2, -(1:ℚ)/2)].map Prod.snd)) ∧
    (channelPeak (GetBlockSize 44100).toNat
        (numBlocks ([((1:ℚ)/2, -(1:ℚ)/2)]).length (GetBlockSize 44100).toNat)
        ([((1:ℚ)/2, -(1:ℚ)/2)].map Prod.fst)
      = channelPeak (GetBlockSize 44100).toNat
        (numBlocks ([((1:ℚ)/2, -(1:ℚ)/2)]).length (GetBlockSize 44100).toNat)
        ([((1:ℚ)/2, -(1:ℚ)/2)].map Prod.snd)) ∧
    (ComputeStereoDR 44100 [((1:ℚ)/2, -(1:ℚ)/2)]).1
      = (ComputeStereoDR 44100 [((1:ℚ)/2, -(1:ℚ)/2)]).2 := by
  have hbs : (GetBlockSize 44100).toNat = 132480 := by
    rw [getBlockSize_44100_eval]
    rfl
  have htake : ∀ q : ℚ, List.take 132480 [q] = [q] :=
    fun q => List.take_of_length_le (by norm_num)
  have hms : channelMS (GetBlockSize 44100).toNat
      (numBlocks ([((1:ℚ)/2, -(1:ℚ)/2)]).length (GetBlockSize 44100).toNat)
      ([((1:ℚ)/2, -(1:ℚ)/2)].map Prod.fst)
    = channelMS (GetBlockSize 44100).toNat
      (numBlocks ([((1:ℚ)/2, -(1:ℚ)/2)]).length (GetBlockSize 44100).toNat)
      ([((1:ℚ)/2, -(1:ℚ)/2)].map Prod.snd) := by
    rw [hbs]
    norm_num [channelMS, blockAt, meanSquare, sumOfSquares, numBlocks, htake]
  have hpk : channelPeak (GetBlockSize 44100).toNat
      (numBlocks ([((1:ℚ)/2, -(1:ℚ)/2)]).length (GetBlockSize 44100).toNat)
      ([((1:ℚ)/2, -(1:ℚ)/2)].map Prod.fst)
    = channelPeak (GetBlockSize 44100).toNat
      (numBlocks ([((1:ℚ)/2, -(1:ℚ)/2)]).length (GetBlockSize 44100).toNat)
      ([((1:ℚ)/2, -(1:ℚ)/2)].map Prod.snd) := by
    rw [hbs]
    norm_num [channelPeak, blockAt, peakVal, numBlocks, htake]
  exact ⟨hms, hpk, (c7_stereo_symmetry 44100 [((1:ℚ)/2, -(1:ℚ)/2)] hms hpk).1⟩

lemma Fx_add_not_finite {a b : Fx} (h : a.isFinite = false ∨ b.isFinite = false) :
    (a.add b).isFinite = false := by
  cases a <;> cases b <;> simp_all [Fx.isFinite, Fx.add]

lemma sumRatings_not_finite {rs : List Fx} {r : Fx} (hmem : r ∈ rs)
    (hr : r.isFinite = false) : (sumRatings rs).isFinite = false := by
  rw [sumRatings]
  suffices h : ∀ (acc : Fx), acc.isFinite = false ∨ (∃ x ∈ rs, x.isFinite = false) →
      (rs.foldl Fx.add acc).isFinite = false by
    exact h (.fin 0) (Or.inr ⟨r, hmem, hr⟩)
  clear hmem hr
  induction rs with
  | nil =>
    intro acc h
    rcases h with h | ⟨x, hx, _⟩
    · exact h
    · cases hx
  | cons y t ih =>
    intro acc h
    rw [List.foldl_cons]
    rcases h with h | ⟨x, hx, hxf⟩
    · exact ih _ (Or.inl (Fx_add_not_finite (Or.inl h)))
    · rcases List.mem_cons.mp hx with rfl | hx'
      · exact ih _ (Or.inl (Fx_add_not_finite (Or.inr hxf)))
      · exact ih _ (Or.inr ⟨x, hx', hxf⟩)

lemma Fx_divNat_not_finite {a : Fx} (h : a.isFinite = false) (n : ℕ) :
    (a.divNat n).isFinite = false := by
  cases a <;> simp_all [Fx.isFinite, Fx.divNat]

lemma Fx_roundFx_not_finite {a : Fx} (h : a.isFinite = false) :
    a.roundFx.isFinite = false := by
  cases a <;> simp_all [Fx.isFinite, Fx.roundFx]

/-- C8: if any per-track final rating is non-finite, the album aggregate
(the rounding of the directly summed ratings divided by the track count)
is non-finite as well. -/
theorem c8_album_poisoning (rs : List Fx) (r : Fx) (hmem : r ∈ rs)
    (hr : r.isFinite = false) : (albumRating rs).isFinite = false := by
  rw [albumRating]
  exact Fx_roundFx_not_finite (Fx_divNat_not_finite (sumRatings_not_finite hmem hr) _)

theorem c8_album_poisoning_witness :
    Fx.pinf ∈ [Fx.fin 12, Fx.pinf] ∧ Fx.pinf.isFinite = false ∧
    (albumRating [Fx.fin 12, Fx.pinf]).isFinite = false :=
  ⟨by simp, rfl, c8_album_poisoning [Fx.fin 12, Fx.pinf] Fx.pinf (by simp) rfl⟩

/-- C9: a file with more than two channels makes the run abort with a
failure before any rating is computed, while `ComputeRating` itself
performs no channel-count validation: on any input that is not
single-channel it simply runs the stereo computation. -/
theorem c9_channel_validation (ts : List TrackInput) (t : TrackInput)
    (hmem : t ∈ ts) (hch : 2 < t.channels) :
    runTracks ts = .error () ∧
    ∀ u : TrackInput, u.channels ≠ 1 →
      ComputeRating u
        = finalStereoRating (ComputeStereoDR u.samplerate (deinterleave u.samples)).1
            (ComputeStereoDR u.samplerate (deinterleave u.samples)).2 := by
  constructor
  · rw [runTracks, if_neg]
    simp only [List.all_eq_true, not_forall]
    exact ⟨t, hmem, by simp; omega⟩
  · intro u hu
    rw [ComputeRating, if_neg hu]

theorem c9_channel_validation_witness :
    (⟨3, 44100, []⟩ : TrackInput) ∈ [(⟨3, 44100, []⟩ : TrackInput)] ∧
    2 < (⟨3, 44100, []⟩ : TrackInput).channels ∧
    runTracks [(⟨3, 44100, []⟩ : TrackInput)] = .error () :=
  ⟨by simp, by norm_num,
    (c9_channel_validation [⟨3, 44100, []⟩] ⟨3, 44100, []⟩ (by simp) (by norm_num)).1⟩

/-! ### Zero-length stream (claim C10) -/

lemma numBlocks_zero (bs : ℕ) : numBlocks 0 bs = 1 := by
  rw [numBlocks]
  rcases Nat.eq_zero_or_pos bs with h | h
  · subst h; rfl
  · rw [Nat.zero_add, Nat.div_eq_of_lt (by omega)]
    rfl

lemma channelMS_nil (bs : ℕ) : channelMS bs 1 [] = [FQ.nan] := by
  simp [channelMS, blockAt, meanSquare]

lemma channelPeak_nil (bs : ℕ) : channelPeak bs 1 [] = [(0:ℚ)] := by
  simp [channelPeak, blockAt, peakVal]

lemma monoDRFromStats_nan_zero : monoDRFromStats 1 [FQ.nan] [(0:ℚ)] = Fx.nan := rfl

/-- C10: a stream with zero total frames still yields exactly one block;
the single read returns no samples, the block's mean square is the IEEE
`0.f / 0` (NaN), the selection indices stay inside the single-element
statistic vectors, and the resulting rating is NaN rather than a crash. -/
theorem c10_zero_frames (sr : ℤ) :
    numBlocks 0 (GetBlockSize sr).toNat = 1 ∧
    channelMS (GetBlockSize sr).toNat 1 [] = [FQ.nan] ∧
    channelPeak (GetBlockSize sr).toNat 1 [] = [(0:ℚ)] ∧
    numTopBlocks 1 = 1 ∧
    min 1 (1 - 1) < 1 ∧
    ComputeMonoDR sr [] = Fx.nan := by
  refine ⟨numBlocks_zero _, channelMS_nil _, channelPeak_nil _, rfl, by norm_num, ?_⟩
  simp only [ComputeMonoDR, List.length_nil, numBlocks_zero, channelMS_nil, channelPeak_nil]
  exact monoDRFromStats_nan_zero

/-! ### All-silence input (claim C6) -/

lemma blockAt_replicate_zero (bs i n : ℕ) :
    blockAt bs i (List.replicate n (0:ℚ)) = List.replicate (min bs (n - i * bs)) 0 := by
  rw [blockAt, List.drop_replicate, List.take_replicate]

lemma sumOfSquares_zeros (m : ℕ) : sumOfSquares (List.replicate m (0:ℚ)) = 0 := by
  rw [sumOfSquares, List.map_replicate]
  simp

lemma meanSquare_zeros {m : ℕ} (hm : 1 ≤ m) :
    meanSquare (List.replicate m (0:ℚ)) = FQ.fin 0 := by
  rw [meanSquare, if_neg (by simp; omega), sumOfSquares_zeros]
  simp

lemma peakVal_zeros (m : ℕ) : peakVal (List.replicate m (0:ℚ)) = 0 := by
  rw [peakVal]
  induction m with
  | zero => rfl
  | succ k ih =>
    rw [List.replicate_succ, List.foldl_cons]
    simpa using ih

lemma mul_lt_of_lt_numBlocks {n bs i : ℕ} (hn : 1 ≤ n) (hbs : 1 ≤ bs)
    (hi : i < numBlocks n bs) : i * bs < n := by
  rw [numBlocks, show n + bs - 1 = (n - 1) + bs by omega,
    Nat.add_div_right _ (by omega), max_eq_right (Nat.le_add_left 1 _)] at hi
  calc i * bs ≤ ((n - 1) / bs) * bs := Nat.mul_le_mul_right bs (Nat.lt_succ_iff.mp hi)
  _ ≤ n - 1 := Nat.div_mul_le_self _ _
  _ < n := by omega

lemma channelMS_silence {n bs : ℕ} (hn : 1 ≤ n) (hbs : 1 ≤ bs) :
    channelMS bs (numBlocks n bs) (List.replicate n 0)
      = List.replicate (numBlocks n bs) (FQ.fin 0) := by
  rw [List.eq_replicate_iff]
  constructor
  · simp [channelMS]
  · intro b hb
    rw [channelMS] at hb
    obtain ⟨i, hi, rfl⟩ := List.mem_map.mp hb
    have hi' : i < numBlocks n bs := List.mem_range.mp hi
    have hlt : i * bs < n := mul_lt_of_lt_numBlocks hn hbs hi'
    rw [blockAt_replicate_zero]
    exact meanSquare_zeros (by omega)

lemma channelPeak_silence (n bs nb : ℕ) :
    channelPeak bs nb (List.replicate n 0) = List.replicate nb (0:ℚ) := by
  rw [List.eq_replicate_iff]
  constructor
  · simp [channelPeak]
  · intro b hb
    rw [channelPeak] at hb
    obtain ⟨i, _, rfl⟩ := List.mem_map.mp hb
    rw [blockAt_replicate_zero]
    exact peakVal_zeros _

lemma foldl_FQadd_zeros {l : List FQ} (h : ∀ x ∈ l, x = FQ.fin 0) (a : ℚ) :
    l.foldl FQ.add (.fin a) = .fin a := by
  induction l generalizing a with
  | nil => rfl
  | cons x t ih =>
    rw [List.foldl_cons, h x (List.mem_cons_self _ _)]
    have : FQ.add (.fin a) (.fin 0) = .fin a := by rw [FQ.add]; norm_num
    rw [this]
    exact ih (fun y hy => h y (List.mem_cons_of_mem _ hy)) a

lemma avgMeanSquare_zeros (k nb : ℕ) :
    avgMeanSquare k (List.replicate nb (FQ.fin 0)) = FQ.fin 0 := by
  rw [avgMeanSquare]
  have hall : ∀ x ∈ (sortDescFQ (List.replicate nb (FQ.fin 0))).take k, x = FQ.fin 0 := by
    intro x hx
    have hx1 : x ∈ sortDescFQ (List.replicate nb (FQ.fin 0)) := List.mem_of_mem_take hx
    rw [sortDescFQ, List.mem_insertionSort] at hx1
    exact List.eq_of_mem_replicate hx1
  rw [foldl_FQadd_zeros hall, FQ.mul]
  norm_num

lemma getD_all_eq {l : List ℚ} {c : ℚ} (h : ∀ x ∈ l, x = c) (i : ℕ) : l.getD i c = c := by
  rw [List.getD_eq_getElem?_getD]
  rcases h' : l[i]? with _ | x
  · rfl
  · have : x ∈ l := by
      have := List.getElem?_eq_some_iff.mp h'
      obtain ⟨hlt, hx⟩ := this
      exact hx ▸ List.getElem_mem hlt
    rw [Option.getD_some]
    exact h x this

lemma representativePeak_zeros (nb : ℕ) :
    representativePeak (List.replicate nb (0:ℚ)) = 0 := by
  rw [representativePeak]
  apply getD_all_eq
  intro x hx
  rw [sortDescQ, List.mem_insertionSort] at hx
  exact List.eq_of_mem_replicate hx

/-- C6: an all-silence input of at least one frame yields an average mean
square of zero on every channel, and the resulting DR value is NaN
(non-finite): the computation completes and propagates the value. -/
theorem c6_all_silence (sr : ℤ) (hsr : 1 ≤ sr) (n : ℕ) (hn : 1 ≤ n) :
    avgMeanSquare (numTopBlocks (numBlocks n (GetBlockSize sr).toNat))
        (channelMS (GetBlockSize sr).toNat (numBlocks n (GetBlockSize sr).toNat)
          (List.replicate n 0)) = FQ.fin 0 ∧
    ComputeMonoDR sr (List.replicate n 0) = Fx.nan ∧
    (ComputeMonoDR sr (List.replicate n 0)).isFinite = false ∧
    ComputeStereoDR sr (List.replicate n (0, 0)) = (Fx.nan, Fx.nan) := by
  have hbs : 1 ≤ (GetBlockSize sr).toNat := by
    have := GetBlockSize_pos hsr
    omega
  have hms := channelMS_silence hn hbs
  have havg := avgMeanSquare_zeros
    (numTopBlocks (numBlocks n (GetBlockSize sr).toNat)) (numBlocks n (GetBlockSize sr).toNat)
  have hmono : ComputeMonoDR sr (List.replicate n 0) = Fx.nan := by
    simp only [ComputeMonoDR, List.length_replicate, hms, channelPeak_silence]
    rw [monoDRFromStats, representativePeak_zeros, avgMeanSquare_zeros]
    rfl
  refine ⟨by rw [hms, havg], hmono, by rw [hmono]; rfl, ?_⟩
  have hfst : (List.replicate n ((0:ℚ), (0:ℚ))).map Prod.fst = List.replicate n 0 := by
    rw [List.map_replicate]
  have hsnd : (List.replicate n ((0:ℚ), (0:ℚ))).map Prod.snd = List.replicate n 0 := by
    rw [List.map_replicate]
  simp only [ComputeStereoDR, List.length_replicate, hfst, hsnd, hms, channelPeak_silence]
  rw [monoDRFromStats, representativePeak_zeros, avgMeanSquare_zeros]
  rfl

theorem c6_all_silence_witness :
    (1:ℤ) ≤ 44100 ∧ (1:ℕ) ≤ 5 ∧
    ComputeMonoDR 44100 (List.replicate 5 0) = Fx.nan :=
  ⟨by norm_num, by norm_num, (c6_all_silence 44100 (by norm_num) 5 (by norm_num)).2.1⟩

end Speedr
